import Mathlib

/-!
Verification development for the `language-identifier` repository.

We give a shallow embedding of the core scoring engine:
  * `src/identifier/utils.py` — `normalize_text`, `generate_char_ngram_profile`,
    `generate_subword_profile`;
  * `src/identifier/core.py` — `LanguageIdentifier._calculate_distance`,
    `LanguageIdentifier.identify`;
  * `src/identifier/advanced.py` — `HybridIdentifier.identify`.

Python strings are modelled as `List Char`, dictionaries as association
lists in insertion order (CPython dicts iterate in insertion order), and
the external subword tokenizer as an opaque function parameter
`List Char → List Int` (it is an external collaborator of the core).
Python's stable `sorted` / `Counter.most_common` are modelled with
Mathlib's stable `List.insertionSort`.
-/

namespace LangID

/-! ### Text normalization (`utils.normalize_text`) -/

/-- `str.lower()` restricted to ASCII: maps `'A'..'Z'` to `'a'..'z'`,
leaves every other character unchanged. -/
def pyLower (c : Char) : Char :=
  if 'A' ≤ c ∧ c ≤ 'Z' then Char.ofNat (c.toNat + 32) else c

/-- The character class `\s` of Python's `re` (ASCII whitespace). -/
def isPySpace (c : Char) : Bool :=
  c = ' ' || c = '\t' || c = '\n' || c = '\x0b' || c = '\x0c' || c = '\r'

/-- Characters kept by `re.sub(r'[^a-z\s]', '', ·)`: lowercase Latin
letters and whitespace. -/
def keepChar (c : Char) : Bool :=
  (decide ('a' ≤ c) && decide (c ≤ 'z')) || isPySpace c

/-- Helper for `collapseSpaces`: the flag records whether the previous
character was whitespace (i.e. we are inside a run whose single `' '`
has already been emitted). -/
def collapseAux : Bool → List Char → List Char
  | _, [] => []
  | prevSpace, c :: cs =>
    if isPySpace c then
      if prevSpace then collapseAux true cs
      else ' ' :: collapseAux true cs
    else c :: collapseAux false cs

/-- `re.sub(r'\s+', ' ', ·)`: replace every maximal whitespace run by a
single space. -/
def collapseSpaces (l : List Char) : List Char := collapseAux false l

/-- `str.strip()`: drop leading and trailing whitespace. -/
def pyStrip (l : List Char) : List Char :=
  ((l.dropWhile isPySpace).reverse.dropWhile isPySpace).reverse

/-- `utils.normalize_text`: lowercase, keep only letters and whitespace,
collapse whitespace runs to single spaces, strip the ends. -/
def normalize_text (s : List Char) : List Char :=
  pyStrip (collapseSpaces ((s.map pyLower).filter keepChar))

/-! ### Counting and `Counter.most_common` -/

variable {α : Type*} [DecidableEq α]

/-- Helper for `firstDedup`: `seen` holds the keys already inserted into
the dict; a key is emitted only on its first insertion. -/
def firstDedupGo : List α → List α → List α
  | [], _ => []
  | x :: xs, seen =>
    if x ∈ seen then firstDedupGo xs seen
    else x :: firstDedupGo xs (x :: seen)

/-- The keys of `collections.Counter(xs)` in iteration order: the elements
of `xs` with later duplicates removed (a CPython dict iterates its keys in
first-insertion order). -/
def firstDedup (xs : List α) : List α := firstDedupGo xs []

/-- `collections.Counter(xs)` as an association list: keys in
first-insertion order, each paired with its number of occurrences. -/
def counter (xs : List α) : List (α × Nat) :=
  (firstDedup xs).map (fun g => (g, xs.count g))

/-- Order used by `Counter.most_common` / `sorted(..., reverse=True)`:
larger counts first.  `descByCount a b` means `a` may come before `b`. -/
abbrev descByCount (a b : α × Nat) : Prop := b.2 ≤ a.2

instance : IsTotal (α × Nat) descByCount := ⟨fun a b => Nat.le_total b.2 a.2⟩

instance : IsTrans (α × Nat) descByCount := ⟨fun _ _ _ h1 h2 => Nat.le_trans h2 h1⟩

/-- `Counter.most_common(k)`: the entries sorted by descending count
(stably, so ties keep first-insertion order), truncated to `k`. -/
def most_common (k : Nat) (xs : List (α × Nat)) : List (α × Nat) :=
  (xs.insertionSort descByCount).take k

/-! ### N-gram and subword profiles (`utils.py`) -/

/-- The sliding-window n-grams `[text[i:i+n] for i in range(len(text)-n+1)]`. -/
def ngramsOf (text : List Char) (n : Nat) : List (List Char) :=
  (List.range (text.length - n + 1)).map (fun i => (text.drop i).take n)

/-- `utils.generate_char_ngram_profile`: empty when the text is shorter
than `n`; otherwise the `profile_size` most common n-grams,
most-frequent-first. -/
def generate_char_ngram_profile (text : List Char) (n profile_size : Nat) :
    List (List Char) :=
  if text.length < n then []
  else (most_common profile_size (counter (ngramsOf text n))).map Prod.fst

/-- `utils.generate_subword_profile`: the tokenizer is an external
collaborator, passed as a function.  Empty token list gives an empty
profile; otherwise the `profile_size` most common token ids. -/
def generate_subword_profile (tok : List Char → List Int) (text : List Char)
    (profile_size : Nat) : List Int :=
  let token_ids := tok text
  if token_ids = [] then []
  else (most_common profile_size (counter token_ids)).map Prod.fst

/-! ### Rank map and out-of-place distance (`core._calculate_distance`) -/

/-- Helper for `rankOf`, carrying the index of the head element. -/
def rankOfAux (g : α) : Nat → List α → Option Nat
  | _, [] => none
  | i, x :: xs =>
    match rankOfAux g (i + 1) xs with
    | some r => some r
    | none => if x = g then some i else none

/-- The rank map `{ngram: i for i, ngram in enumerate(lang_profile)}`:
a later duplicate key overwrites an earlier one, so `rankOf l g` is the
index of the last occurrence of `g` in `l` (none if absent). -/
def rankOf (l : List α) (g : α) : Option Nat := rankOfAux g 0 l

/-- `core.LanguageIdentifier._calculate_distance`: for each position `i`
of the text profile, add `|i - r|` if the symbol has rank `r` in the
language profile, else add the penalty (`self.profile_size`). -/
def calculate_distance (penalty : Nat) (text_profile lang_profile : List α) : Nat :=
  (text_profile.enum.map (fun p =>
    match rankOf lang_profile p.2 with
    | some r => Nat.dist p.1 r
    | none => penalty)).sum

/-! ### The language scorer (`core.LanguageIdentifier.identify`) -/

/-- The result dictionary of `identify` on the success path. -/
structure IdentifyResult where
  prediction : String
  distribution : List (String × Nat)
  top_features : List (List Char)
deriving DecidableEq

/-- Ascending-score order used by `sorted(scores.items(), key=...item[1])`. -/
abbrev ascByScore (a b : String × Nat) : Prop := a.2 ≤ b.2

instance : IsTotal (String × Nat) ascByScore := ⟨fun a b => Nat.le_total a.2 b.2⟩

instance : IsTrans (String × Nat) ascByScore := ⟨fun _ _ _ => Nat.le_trans⟩

/-- Rank-ascending order used for `top_features`
(`sorted(..., key=lambda ngram: best_lang_profile_ranks[ngram])`). -/
abbrev byRank (lp : List α) (a b : α) : Prop :=
  (rankOf lp a).getD 0 ≤ (rankOf lp b).getD 0

instance (lp : List α) : IsTotal α (byRank lp) := ⟨fun _ _ => Nat.le_total _ _⟩

instance (lp : List α) : IsTrans α (byRank lp) := ⟨fun _ _ _ => Nat.le_trans⟩

/-- `core.LanguageIdentifier.identify`.  The loaded profile mapping
`self.profiles` is an association list in insertion order; error
dictionaries become `Except.error` with the source's message.  The
`"internal: "` branch is unreachable (in Python it would be an
`IndexError` on `sorted_scores[0]`): `scores` is nonempty whenever
`profiles` is. -/
def identify (profiles : List (String × List (List Char)))
    (n_gram_size profile_size : Nat) (text : List Char) (top_n : Nat) :
    Except String IdentifyResult :=
  if profiles = [] then .error "Identifier has no profiles loaded."
  else
    let text_profile :=
      generate_char_ngram_profile (normalize_text text) n_gram_size profile_size
    if text_profile = [] then
      .error "Text too short or lacks valid characters to analyze."
    else
      let scores := profiles.map (fun p =>
        (p.1, calculate_distance profile_size text_profile p.2))
      match scores.insertionSort ascByScore with
      | [] => .error "internal: empty scores"
      | best :: rest =>
        let best_lang_profile := (profiles.lookup best.1).getD []
        let top_features :=
          ((text_profile.filter (fun g => (rankOf best_lang_profile g).isSome)).insertionSort
            (byRank best_lang_profile)).take 5
        .ok { prediction := best.1,
              distribution := (best :: rest).take top_n,
              top_features := top_features }

deriving instance DecidableEq for Except

/-! ### The hybrid scorer (`advanced.HybridIdentifier.identify`) -/

/-- The result dictionary of `HybridIdentifier.identify` on the success
path.  Scores are rationals: Python blends the integer distances with
the float weight `alpha` (the two-decimal string formatting of the
distribution is presentation only and is elided). -/
structure HybridResult where
  prediction : String
  distribution : List (String × ℚ)
  top_features : List (List Char)
deriving DecidableEq

/-- Ascending order on blended scores. -/
abbrev ascByScoreQ (a b : String × ℚ) : Prop := a.2 ≤ b.2

instance : IsTotal (String × ℚ) ascByScoreQ := ⟨fun a b => le_total a.2 b.2⟩

instance : IsTrans (String × ℚ) ascByScoreQ := ⟨fun _ _ _ => le_trans⟩

/-- `advanced.HybridIdentifier.identify`.  `char_profiles` and
`subword_profiles` are the two loaded mappings; `tok` is the external
tokenizer.  Languages without a subword profile are skipped
(`if lang_code not in self.subword_profiles: continue`). -/
def hybrid_identify (char_profiles : List (String × List (List Char)))
    (subword_profiles : List (String × List Int)) (tok : List Char → List Int)
    (n_gram_size profile_size : Nat) (alpha : ℚ) (text : List Char)
    (top_n : Nat) : Except String HybridResult :=
  let text_char_profile :=
    generate_char_ngram_profile (normalize_text text) n_gram_size profile_size
  let text_subword_profile := generate_subword_profile tok text profile_size
  if text_char_profile = [] ∨ text_subword_profile = [] then
    .error "Text too short to generate a reliable profile."
  else
    let final_scores := char_profiles.filterMap (fun p =>
      (subword_profiles.lookup p.1).map (fun sp =>
        (p.1, alpha * (calculate_distance profile_size text_char_profile p.2 : ℚ)
          + (1 - alpha) * (calculate_distance profile_size text_subword_profile sp : ℚ))))
    if final_scores = [] then
      .error "Could not score text against any language. Check profiles."
    else
      match final_scores.insertionSort ascByScoreQ with
      | [] => .error "internal: empty scores"
      | best :: rest =>
        let best_char_profile := (char_profiles.lookup best.1).getD []
        let top_features :=
          ((text_char_profile.filter (fun g => (rankOf best_char_profile g).isSome)).insertionSort
            (byRank best_char_profile)).take 5
        .ok { prediction := best.1,
              distribution := (best :: rest).take top_n,
              top_features := top_features }

/-! ### Lemmas about `rankOf` -/

theorem rankOfAux_eq_none_of_not_mem {g : α} {l : List α} (h : g ∉ l) (i : Nat) :
    rankOfAux g i l = none := by
  induction l generalizing i with
  | nil => rfl
  | cons x xs ih =>
    have hx : x ≠ g := fun e => h (e ▸ List.mem_cons_self x xs)
    have hg : g ∉ xs := fun m => h (List.mem_cons_of_mem x m)
    simp [rankOfAux, ih hg, hx]

theorem rankOfAux_lt {g : α} {l : List α} {i r : Nat}
    (h : rankOfAux g i l = some r) : r < i + l.length := by
  induction l generalizing i with
  | nil => simp [rankOfAux] at h
  | cons x xs ih =>
    rw [rankOfAux] at h
    cases hr : rankOfAux g (i + 1) xs with
    | some r' =>
      rw [hr] at h
      cases h
      have := ih hr
      simp only [List.length_cons]
      omega
    | none =>
      rw [hr] at h
      by_cases hx : x = g
      · simp only [hx, if_pos rfl] at h
        cases h
        simp only [List.length_cons]
        omega
      · simp [hx] at h

theorem rankOf_lt {g : α} {l : List α} {r : Nat} (h : rankOf l g = some r) :
    r < l.length := by
  have := rankOfAux_lt (l := l) (i := 0) h
  omega

theorem rankOfAux_append_of_not_mem {g : α} {l₂ : List α} (h : g ∉ l₂) :
    ∀ (l₁ : List α) (i : Nat), rankOfAux g i (l₁ ++ l₂) = rankOfAux g i l₁ := by
  intro l₁
  induction l₁ with
  | nil =>
    intro i
    simpa [rankOfAux] using rankOfAux_eq_none_of_not_mem h i
  | cons x xs ih =>
    intro i
    simp only [List.cons_append, rankOfAux]
    rw [show xs.append l₂ = xs ++ l₂ from rfl, ih]

/-- Appending fresh symbols to a reference profile does not change any
symbol's rank. -/
theorem rankOf_append_of_not_mem {g : α} {l₂ : List α} (h : g ∉ l₂) (l₁ : List α) :
    rankOf (l₁ ++ l₂) g = rankOf l₁ g :=
  rankOfAux_append_of_not_mem h l₁ 0

/-! ### Lemmas about `calculate_distance` -/

theorem nat_dist_le_max (a b : Nat) : Nat.dist a b ≤ max a b := by
  simp only [Nat.dist]
  omega

/-- Bound on the out-of-place distance when both profiles are no longer
than the penalty. -/
theorem calculate_distance_le {penalty : Nat} {tp lp : List α}
    (hlp : lp.length ≤ penalty) (htp : tp.length ≤ penalty) :
    calculate_distance penalty tp lp ≤ tp.length * penalty := by
  unfold calculate_distance
  have hb : ∀ x ∈ tp.enum.map (fun p =>
      match rankOf lp p.2 with
      | some r => Nat.dist p.1 r
      | none => penalty), x ≤ penalty := by
    intro x hx
    rcases List.mem_map.mp hx with ⟨p, hp, rfl⟩
    have hip : p.1 < tp.length := by
      have : (p.1, p.2) ∈ tp.enum := hp
      have h2 := (List.mk_mem_enum_iff_getElem?).mp this
      exact (List.getElem?_eq_some.mp h2).1
    cases hr : rankOf lp p.2 with
    | some r =>
      have hrl : r < lp.length := rankOf_lt hr
      calc Nat.dist p.1 r ≤ max p.1 r := nat_dist_le_max _ _
        _ ≤ penalty := by omega
    | none => simp
  calc (tp.enum.map _).sum
      ≤ (tp.enum.map (fun p =>
          match rankOf lp p.2 with
          | some r => Nat.dist p.1 r
          | none => penalty)).length • penalty := List.sum_le_card_nsmul _ _ hb
    _ = tp.length * penalty := by
        simp [List.enum_length, Nat.mul_comm]

/-! ### Claim C3: distance bounds -/

/-- C3 counterexample: with penalty (profile size) 1, reference profile
`['c']` of length `1 ≤ 1`, and text profile `['a','b','c']`, the distance
is `4 > 3 * 1 = len(textProfile) * penaltyValue`.  The claim bounds only
the reference profile's length, so it fails when the text profile is
longer than the penalty value. -/
theorem c3_counterexample :
    ([('c')] : List Char).length ≤ 1 ∧
      calculate_distance 1 ['a', 'b', 'c'] ['c'] = 4 ∧
      ¬ calculate_distance 1 ['a', 'b', 'c'] ['c'] ≤
          ([('a'), ('b'), ('c')] : List Char).length * 1 := by
  refine ⟨by decide, by decide, by decide⟩

/-- C3 (amended): when BOTH profiles have length at most the penalty
value, the rank-distance lies in `[0, len(textProfile) * penaltyValue]`
(the lower bound is trivial: the distance is a sum of naturals). -/
theorem c3_distance_bounds (penalty : Nat) (tp lp : List α)
    (hlp : lp.length ≤ penalty) (htp : tp.length ≤ penalty) :
    calculate_distance penalty tp lp ≤ tp.length * penalty :=
  calculate_distance_le hlp htp

/-- Witness for C3: the amended bound at a concrete input. -/
theorem c3_distance_bounds_witness :
    calculate_distance 2 ['a', 'b'] ['b'] ≤ (['a', 'b'] : List Char).length * 2 :=
  c3_distance_bounds 2 ['a', 'b'] ['b'] (by decide) (by decide)

/-! ### Claim C4: absent reference symbols contribute nothing -/

/-- C4: appending to the reference profile symbols occurring neither in
the text profile nor already in the reference leaves the distance
unchanged. -/
theorem c4_fresh_reference_symbols_irrelevant {penalty : Nat}
    (tp r ext : List α) (hext : ∀ g ∈ ext, g ∉ tp ∧ g ∉ r) :
    calculate_distance penalty tp (r ++ ext) = calculate_distance penalty tp r := by
  unfold calculate_distance
  congr 1
  apply List.map_congr_left
  intro p hp
  have hmem : p.2 ∈ tp := by
    have h2 := (List.mk_mem_enum_iff_getElem?).mp hp
    exact List.getElem?_mem h2
  have hnotext : p.2 ∉ ext := fun hc => (hext p.2 hc).1 hmem
  rw [rankOf_append_of_not_mem hnotext]

/-- Witness for C4 at a concrete input: appending the fresh symbol `'z'`
to the reference `['b']` does not change the distance from `['a','b']`. -/
theorem c4_fresh_reference_symbols_irrelevant_witness :
    calculate_distance 300 ['a', 'b'] (['b'] ++ ['z']) =
      calculate_distance 300 ['a', 'b'] ['b'] :=
  c4_fresh_reference_symbols_irrelevant ['a', 'b'] ['b'] ['z'] (by decide)

/-! ### Claim C5: the metric is not symmetric -/

/-- C5: the rank-distance is not symmetric — witnessed by the profiles
`['a','b']` and `['b']` with the default penalty 300: the distance is
301 one way (one absent symbol plus one rank shift) and 1 the other
(only the text-profile argument is iterated). -/
theorem c5_distance_not_symmetric :
    ∃ a b : List Char,
      calculate_distance 300 a b ≠ calculate_distance 300 b a :=
  ⟨['a', 'b'], ['b'], by decide⟩

/-! ### Stability of the modelled Python sort

Python's `sorted` (and `Counter.most_common`) is stable; so is Mathlib's
`List.insertionSort`, which models it here.  The lemmas below extract the
consequence we need: on a duplicate-free input, any order `Q` holding
pairwise on the input still holds pairwise on the sorted output between
elements the sort relation cannot distinguish (ties). -/

theorem sublist_pair_asymm {β : Type*} {a b : β} :
    ∀ {s : List β}, s.Nodup → List.Sublist [a, b] s → List.Sublist [b, a] s → False := by
  intro s
  induction s with
  | nil => intro _ h1; cases h1
  | cons x t ih =>
    intro hnd h1 h2
    have hxt : x ∉ t := (List.nodup_cons.mp hnd).1
    have hndt : t.Nodup := (List.nodup_cons.mp hnd).2
    cases h1 with
    | cons _ h1' =>
      cases h2 with
      | cons _ h2' => exact ih hndt h1' h2'
      | cons₂ _ h2' =>
        -- here the head is b, and h1' : [a,b] sublist of t gives b ∈ t
        exact absurd ((h1'.subset) (by simp)) hxt
    | cons₂ _ h1' =>
      -- here the head is a
      cases h2 with
      | cons _ h2' =>
        -- h2' : [b,a] sublist of t gives a ∈ t
        exact absurd ((h2'.subset) (by simp)) hxt
      | cons₂ _ h2' =>
        -- the head is both a and b, so h2' : [a] sublist of t gives a ∈ t
        exact absurd ((h2'.subset) (by simp)) hxt

theorem mem_mem_ne_sublist_or {β : Type*} {a b : β} :
    ∀ {l : List β}, a ∈ l → b ∈ l → a ≠ b → List.Sublist [a, b] l ∨ List.Sublist [b, a] l := by
  intro l
  induction l with
  | nil => intro ha; cases ha
  | cons x t ih =>
    intro ha hb hne
    rcases List.mem_cons.mp ha with ha' | ha'
    · subst ha'
      have hbt : b ∈ t := by
        rcases List.mem_cons.mp hb with hb' | hb'
        · exact absurd hb'.symm hne
        · exact hb'
      exact Or.inl (List.cons_sublist_cons.mpr (List.singleton_sublist.mpr hbt))
    · rcases List.mem_cons.mp hb with hb' | hb'
      · subst hb'
        exact Or.inr (List.cons_sublist_cons.mpr (List.singleton_sublist.mpr ha'))
      · rcases ih ha' hb' hne with h | h
        · exact Or.inl (h.cons x)
        · exact Or.inr (h.cons x)

/-- Stability: sorting a duplicate-free list with a total transitive
relation `r` preserves, between tied elements, any order `Q` that held
pairwise on the input. -/
theorem insertionSort_pairwise_stable {β : Type*} {r : β → β → Prop}
    [DecidableRel r] [IsTotal β r] [IsTrans β r] {Q : β → β → Prop}
    {l : List β} (hnd : l.Nodup) (hQ : l.Pairwise Q) :
    (l.insertionSort r).Pairwise (fun a b => r a b ∧ (r b a → Q a b)) := by
  rw [List.pairwise_iff_forall_sublist]
  intro a b hab
  have hsorted : (l.insertionSort r).Pairwise r :=
    List.sorted_insertionSort r l
  have hrab : r a b := List.pairwise_iff_forall_sublist.mp hsorted hab
  refine ⟨hrab, fun hrba => ?_⟩
  have hnds : (l.insertionSort r).Nodup :=
    (List.perm_insertionSort r l).nodup_iff.mpr hnd
  have hne : a ≠ b := by
    rintro rfl
    exact (List.pairwise_iff_forall_sublist.mp hnds hab) rfl
  have hal : a ∈ l := (List.mem_insertionSort r).mp (hab.subset (by simp))
  have hbl : b ∈ l := (List.mem_insertionSort r).mp (hab.subset (by simp))
  rcases mem_mem_ne_sublist_or hal hbl hne with h | h
  · exact List.pairwise_iff_forall_sublist.mp hQ h
  · exact absurd (List.pair_sublist_insertionSort hrba h)
      (fun hc => sublist_pair_asymm hnds hab hc)

/-! ### Lemmas about `firstDedup` and `counter` -/

theorem mem_firstDedupGo :
    ∀ (xs seen : List α) (a : α),
      a ∈ firstDedupGo xs seen ↔ a ∈ xs ∧ a ∉ seen := by
  intro xs
  induction xs with
  | nil => simp [firstDedupGo]
  | cons x xs ih =>
    intro seen a
    rw [firstDedupGo]
    split
    case isTrue hx =>
      rw [ih]
      constructor
      · rintro ⟨h1, h2⟩
        exact ⟨List.mem_cons_of_mem _ h1, h2⟩
      · rintro ⟨h1, h2⟩
        rcases List.mem_cons.mp h1 with rfl | h1'
        · exact absurd hx h2
        · exact ⟨h1', h2⟩
    case isFalse hx =>
      constructor
      · intro h
        rcases List.mem_cons.mp h with rfl | h'
        · exact ⟨List.mem_cons_self _ _, hx⟩
        · have h2 := (ih _ _).mp h'
          exact ⟨List.mem_cons_of_mem _ h2.1,
            fun hc => h2.2 (List.mem_cons_of_mem _ hc)⟩
      · rintro ⟨h1, h2⟩
        rcases List.mem_cons.mp h1 with rfl | h1'
        · exact List.mem_cons_self _ _
        · by_cases hax : a = x
          · subst hax
            exact List.mem_cons_self _ _
          · refine List.mem_cons_of_mem _ ((ih _ _).mpr ⟨h1', fun hc => ?_⟩)
            rcases List.mem_cons.mp hc with h | h
            · exact hax h
            · exact h2 h

theorem mem_firstDedup {xs : List α} {a : α} : a ∈ firstDedup xs ↔ a ∈ xs := by
  rw [firstDedup, mem_firstDedupGo]
  simp

theorem firstDedupGo_nodup : ∀ (xs seen : List α), (firstDedupGo xs seen).Nodup := by
  intro xs
  induction xs with
  | nil => intro seen; simp [firstDedupGo]
  | cons x xs ih =>
    intro seen
    rw [firstDedupGo]
    split
    · exact ih _
    · refine List.nodup_cons.mpr ⟨fun hx => ?_, ih _⟩
      exact ((mem_firstDedupGo _ _ _).mp hx).2 (List.mem_cons_self _ _)

theorem firstDedup_nodup (xs : List α) : (firstDedup xs).Nodup :=
  firstDedupGo_nodup xs []

theorem firstDedupGo_pairwise_indexOf :
    ∀ (xs seen : List α), (firstDedupGo xs seen).Pairwise
      (fun a b => xs.indexOf a < xs.indexOf b) := by
  intro xs
  induction xs with
  | nil => intro seen; simp [firstDedupGo]
  | cons x xs ih =>
    intro seen
    rw [firstDedupGo]
    split
    case isTrue hx =>
      refine (ih seen).imp_of_mem ?_
      intro a b ha hb hlt
      have ha' := (mem_firstDedupGo _ _ _).mp ha
      have hb' := (mem_firstDedupGo _ _ _).mp hb
      have hax : a ≠ x := fun e => ha'.2 (e ▸ hx)
      have hbx : b ≠ x := fun e => hb'.2 (e ▸ hx)
      rw [List.indexOf_cons_ne _ (Ne.symm hax), List.indexOf_cons_ne _ (Ne.symm hbx)]
      exact Nat.succ_lt_succ hlt
    case isFalse hx =>
      refine List.pairwise_cons.mpr ⟨fun b hb => ?_, ?_⟩
      · have hb' := (mem_firstDedupGo _ _ _).mp hb
        have hbx : b ≠ x := fun e => hb'.2 (e ▸ List.mem_cons_self _ _)
        rw [List.indexOf_cons_self, List.indexOf_cons_ne _ (Ne.symm hbx)]
        exact Nat.succ_pos _
      · refine (ih _).imp_of_mem ?_
        intro a b ha hb hlt
        have ha' := (mem_firstDedupGo _ _ _).mp ha
        have hb' := (mem_firstDedupGo _ _ _).mp hb
        have hax : a ≠ x := fun e => ha'.2 (e ▸ List.mem_cons_self _ _)
        have hbx : b ≠ x := fun e => hb'.2 (e ▸ List.mem_cons_self _ _)
        rw [List.indexOf_cons_ne _ (Ne.symm hax), List.indexOf_cons_ne _ (Ne.symm hbx)]
        exact Nat.succ_lt_succ hlt

theorem firstDedup_pairwise_indexOf (xs : List α) :
    (firstDedup xs).Pairwise (fun a b => xs.indexOf a < xs.indexOf b) :=
  firstDedupGo_pairwise_indexOf xs []

theorem counter_map_fst (xs : List α) :
    (counter xs).map Prod.fst = firstDedup xs := by
  simp [counter, List.map_map, Function.comp_def]

theorem counter_nodup (xs : List α) : (counter xs).Nodup := by
  have h : ((counter xs).map Prod.fst).Nodup := by
    rw [counter_map_fst]; exact firstDedup_nodup xs
  exact h.of_map

theorem mem_counter {xs : List α} {e : α × Nat} (h : e ∈ counter xs) :
    e.1 ∈ xs ∧ e.2 = xs.count e.1 := by
  rcases List.mem_map.mp h with ⟨g, hg, rfl⟩
  exact ⟨mem_firstDedup.mp hg, rfl⟩

theorem counter_pairwise_indexOf (xs : List α) :
    (counter xs).Pairwise (fun a b => xs.indexOf a.1 < xs.indexOf b.1) := by
  rw [counter, List.pairwise_map]
  exact firstDedup_pairwise_indexOf xs

theorem counter_length (xs : List α) :
    (counter xs).length = xs.toFinset.card := by
  rw [counter, List.length_map]
  have hnd := firstDedup_nodup xs
  have hset : (firstDedup xs).toFinset = xs.toFinset := by
    ext a
    rw [List.mem_toFinset, List.mem_toFinset, mem_firstDedup]
  rw [← List.toFinset_card_of_nodup hnd, hset]

/-! ### Profiles contain pairwise-distinct symbols -/

theorem most_common_map_fst_nodup (k : Nat) (xs : List α) :
    ((most_common k (counter xs)).map Prod.fst).Nodup := by
  have hperm : List.Perm (((counter xs).insertionSort descByCount).map Prod.fst)
      ((counter xs).map Prod.fst) := (List.perm_insertionSort _ _).map _
  have h1 : (((counter xs).insertionSort descByCount).map Prod.fst).Nodup := by
    rw [counter_map_fst] at hperm
    exact hperm.nodup_iff.mpr (firstDedup_nodup xs)
  have hsub : List.Sublist ((most_common k (counter xs)).map Prod.fst)
      (((counter xs).insertionSort descByCount).map Prod.fst) := by
    rw [most_common]
    exact (List.take_sublist _ _).map _
  exact h1.sublist hsub

/-- C10: every profile produced by `generate_char_ngram_profile` or
`generate_subword_profile` has pairwise-distinct symbols: the rank index
a reference profile induces is injective and loses no entry. -/
theorem c10_profile_symbols_nodup :
    (∀ (text : List Char) (n k : Nat),
      (generate_char_ngram_profile text n k).Nodup) ∧
    (∀ (tok : List Char → List Int) (text : List Char) (k : Nat),
      (generate_subword_profile tok text k).Nodup) := by
  constructor
  · intro text n k
    rw [generate_char_ngram_profile]
    split
    · exact List.nodup_nil
    · exact most_common_map_fst_nodup k _
  · intro tok text k
    rw [generate_subword_profile]
    split
    · exact List.nodup_nil
    · exact most_common_map_fst_nodup k _

/-! ### Ordering of `most_common` output (towards C6) -/

/-- The sorted counter is ordered by strictly descending count with ties
ordered by first occurrence in `xs`. -/
theorem counter_sort_pairwise (xs : List α) :
    ((counter xs).insertionSort descByCount).Pairwise
      (fun a b => b.2 < a.2 ∨ (a.2 = b.2 ∧ xs.indexOf a.1 < xs.indexOf b.1)) := by
  have h := insertionSort_pairwise_stable (r := descByCount)
    (counter_nodup xs) (counter_pairwise_indexOf xs)
  refine h.imp ?_
  rintro a b ⟨h1, h2⟩
  rcases Nat.lt_or_ge b.2 a.2 with hlt | hge
  · exact Or.inl hlt
  · exact Or.inr ⟨Nat.le_antisymm hge h1, h2 hge⟩

theorem mem_sort_counter_snd {xs : List α} {e : α × Nat}
    (h : e ∈ (counter xs).insertionSort descByCount) :
    e.1 ∈ xs ∧ e.2 = xs.count e.1 :=
  mem_counter ((List.perm_insertionSort _ _).mem_iff.mp h)

theorem firstDedup_eq_nil_iff {xs : List α} : firstDedup xs = [] ↔ xs = [] := by
  cases xs with
  | nil => simp [firstDedup, firstDedupGo]
  | cons x xs => simp [firstDedup, firstDedupGo]

theorem ngramsOf_ne_nil (text : List Char) (n : Nat) : ngramsOf text n ≠ [] := by
  simp [ngramsOf]

theorem gcnp_length {text : List Char} {n : Nat} (k : Nat) (h : ¬ text.length < n) :
    (generate_char_ngram_profile text n k).length =
      min k (ngramsOf text n).toFinset.card := by
  rw [generate_char_ngram_profile, if_neg h, most_common, List.length_map,
    List.length_take, List.length_insertionSort, counter_length]

/-- The symbol count/first-occurrence ordering the spec prescribes for
profiles: strictly more frequent first; among equal counts, the symbol
first seen in the scan first. -/
def ngramOrder (scan : List α) (g h : α) : Prop :=
  scan.count h < scan.count g ∨
    (scan.count g = scan.count h ∧ scan.indexOf g < scan.indexOf h)

/-- C6: `generate_char_ngram_profile` returns the empty profile exactly
when the text is shorter than `n` (for positive profile size); on
`"ababab"` with `n = 2`, size 2 it returns `["ab", "ba"]`; its output is
ordered by strictly descending count with ties by first occurrence in the
scan; its length is `min k (number of distinct n-grams)`; and it keeps
the most frequent n-grams: any scanned n-gram left out is ranked after
every kept one. -/
theorem c6_char_ngram_profile_spec :
    (∀ (text : List Char) (n k : Nat), 0 < k →
      (generate_char_ngram_profile text n k = [] ↔ text.length < n)) ∧
    generate_char_ngram_profile "ababab".toList 2 2 = [['a', 'b'], ['b', 'a']] ∧
    (∀ (text : List Char) (n k : Nat),
      (generate_char_ngram_profile text n k).Pairwise
        (ngramOrder (ngramsOf text n))) ∧
    (∀ (text : List Char) (n k : Nat), ¬ text.length < n →
      (generate_char_ngram_profile text n k).length =
        min k (ngramsOf text n).toFinset.card) ∧
    (∀ (text : List Char) (n k : Nat) (g h : List Char),
      g ∈ generate_char_ngram_profile text n k → h ∈ ngramsOf text n →
      h ∉ generate_char_ngram_profile text n k →
      ngramOrder (ngramsOf text n) g h) := by
  refine ⟨?_, by decide, ?_, fun text n k h => gcnp_length k h, ?_⟩
  · -- empty iff too short
    intro text n k hk
    by_cases hln : text.length < n
    · rw [generate_char_ngram_profile, if_pos hln]
      simpa using hln
    · have hlen := gcnp_length k hln
      obtain ⟨a, ha⟩ := List.exists_mem_of_ne_nil _ (ngramsOf_ne_nil text n)
      have hcard : 0 < (ngramsOf text n).toFinset.card :=
        Finset.card_pos.mpr ⟨a, List.mem_toFinset.mpr ha⟩
      constructor
      · intro hnil
        rw [hnil] at hlen
        simp only [List.length_nil] at hlen
        omega
      · intro hc
        exact absurd hc hln
  · -- pairwise ordering
    intro text n k
    rw [generate_char_ngram_profile]
    split
    · exact List.Pairwise.nil
    · rw [most_common, List.pairwise_map]
      have hs := counter_sort_pairwise (ngramsOf text n)
      have htake := hs.sublist (List.take_sublist k _)
      refine htake.imp_of_mem ?_
      intro a b ha hb hR
      have ha' := mem_sort_counter_snd ((List.take_sublist _ _).subset ha)
      have hb' := mem_sort_counter_snd ((List.take_sublist _ _).subset hb)
      rcases hR with hlt | ⟨h1, h2⟩
      · exact Or.inl (by rw [← ha'.2, ← hb'.2]; exact hlt)
      · exact Or.inr ⟨by rw [← ha'.2, ← hb'.2]; exact h1, h2⟩
  · -- completeness: dropped n-grams rank after kept ones
    intro text n k g h hg hh hnh
    by_cases hln : text.length < n
    · rw [generate_char_ngram_profile, if_pos hln] at hg
      cases hg
    · rw [generate_char_ngram_profile, if_neg hln, most_common] at hg hnh
      rcases List.mem_map.mp hg with ⟨eg, heg, rfl⟩
      have hhd : h ∈ firstDedup (ngramsOf text n) := mem_firstDedup.mpr hh
      obtain ⟨eh, hehc, hehfst⟩ :
          ∃ eh, eh ∈ counter (ngramsOf text n) ∧ eh.1 = h :=
        ⟨_, List.mem_map.mpr ⟨h, hhd, rfl⟩, rfl⟩
      have hehs : eh ∈ (counter (ngramsOf text n)).insertionSort descByCount :=
        (List.perm_insertionSort _ _).mem_iff.mpr hehc
      have hnott : eh ∉
          ((counter (ngramsOf text n)).insertionSort descByCount).take k :=
        fun hc => hnh (List.mem_map.mpr ⟨_, hc, hehfst⟩)
      have hdrop : eh ∈
          ((counter (ngramsOf text n)).insertionSort descByCount).drop k := by
        have hm := hehs
        rw [← List.take_append_drop k
          ((counter (ngramsOf text n)).insertionSort descByCount)] at hm
        rcases List.mem_append.mp hm with hc | hc
        · exact absurd hc hnott
        · exact hc
      have hpw := counter_sort_pairwise (ngramsOf text n)
      rw [← List.take_append_drop k
        ((counter (ngramsOf text n)).insertionSort descByCount)] at hpw
      have hcross := (List.pairwise_append.mp hpw).2.2 eg heg _ hdrop
      have heg' := mem_sort_counter_snd ((List.take_sublist _ _).subset heg)
      have heh' := mem_counter hehc
      rw [ngramOrder, ← hehfst]
      rcases hcross with hlt | ⟨h1, h2⟩
      · exact Or.inl (by rw [← heg'.2, ← heh'.2]; exact hlt)
      · exact Or.inr ⟨by rw [← heg'.2, ← heh'.2]; exact h1, h2⟩

/-- Witness for C6: the empty-profile criterion applied at the concrete
input `"hi"` with `n = 3`, profile size `10 > 0`. -/
theorem c6_char_ngram_profile_spec_witness :
    generate_char_ngram_profile "hi".toList 3 10 = [] :=
  (c6_char_ngram_profile_spec.1 "hi".toList 3 10 (by decide)).mpr (by decide)

/-! ### Claim C1: shape of a successful `identify` result -/

/-- C1: when the normalized text's profile is non-empty, the reference
set is non-empty, and `top_n` is positive, `identify` succeeds with a
distribution sorted ascending by score of length
`min top_n (number of languages)`, and the prediction is the language of
a minimum-score entry — the first entry of the distribution. -/
theorem c1_identify_success_shape
    (profiles : List (String × List (List Char))) (n k : Nat)
    (text : List Char) (top_n : Nat)
    (hp : profiles ≠ [])
    (htp : generate_char_ngram_profile (normalize_text text) n k ≠ [])
    (htn : 0 < top_n) :
    ∃ res : IdentifyResult,
      identify profiles n k text top_n = .ok res ∧
      res.distribution.Pairwise (fun a b => a.2 ≤ b.2) ∧
      res.distribution.length = min top_n profiles.length ∧
      res.distribution.head?.map Prod.fst = some res.prediction ∧
      ∃ d : Nat,
        (res.prediction, d) ∈ profiles.map (fun p =>
          (p.1, calculate_distance k
            (generate_char_ngram_profile (normalize_text text) n k) p.2)) ∧
        ∀ q ∈ profiles.map (fun p =>
          (p.1, calculate_distance k
            (generate_char_ngram_profile (normalize_text text) n k) p.2)),
          d ≤ q.2 := by
  simp only [identify, if_neg hp, if_neg htp]
  set scoresL := profiles.map (fun p =>
    (p.1, calculate_distance k
      (generate_char_ngram_profile (normalize_text text) n k) p.2)) with hscores
  have hlen : (scoresL.insertionSort ascByScore).length = profiles.length := by
    rw [List.length_insertionSort, hscores, List.length_map]
  cases hsort : scoresL.insertionSort ascByScore with
  | nil =>
    exfalso
    rw [hsort] at hlen
    exact hp (List.length_eq_zero.mp hlen.symm)
  | cons best rest =>
    refine ⟨_, rfl, ?_, ?_, ?_, ?_⟩
    · -- sorted ascending
      have hs : (best :: rest).Pairwise ascByScore := by
        rw [← hsort]
        exact List.sorted_insertionSort ascByScore scoresL
      exact hs.sublist (List.take_sublist _ _)
    · -- length
      rw [List.length_take, ← hsort, hlen]
    · -- head of the distribution is the prediction
      obtain ⟨m, rfl⟩ : ∃ m, top_n = m + 1 :=
        ⟨top_n - 1, (Nat.succ_pred_eq_of_pos htn).symm⟩
      simp [List.take_succ_cons]
    · -- the prediction carries a minimum score
      refine ⟨best.2, ?_, ?_⟩
      · have hmem : best ∈ scoresL :=
          (List.perm_insertionSort ascByScore scoresL).mem_iff.mp
            (hsort ▸ List.mem_cons_self best rest)
        simpa using hmem
      · intro q hq
        have hmem : q ∈ best :: rest :=
          hsort ▸ (List.perm_insertionSort ascByScore scoresL).mem_iff.mpr hq
        have hsorted : List.Sorted ascByScore (best :: rest) := by
          rw [← hsort]
          exact List.sorted_insertionSort ascByScore scoresL
        rcases List.mem_cons.mp hmem with rfl | hmem'
        · exact Nat.le_refl _
        · exact List.rel_of_sorted_cons hsorted q hmem'

/-- Witness for C1 at a concrete input: two loaded languages, text
`"ababab"`, trigram size 2, profile size 5, `top_n = 3`. -/
theorem c1_identify_success_shape_witness :
    ∃ res : IdentifyResult,
      identify [("de", [['a', 'b']]), ("en", [['a', 'b'], ['b', 'a']])] 2 5
        "ababab".toList 3 = .ok res ∧
      res.distribution.Pairwise (fun a b => a.2 ≤ b.2) ∧
      res.distribution.length =
        min 3 ([("de", [['a', 'b']]), ("en", [['a', 'b'], ['b', 'a']])] :
          List (String × List (List Char))).length ∧
      res.distribution.head?.map Prod.fst = some res.prediction ∧
      ∃ d : Nat,
        (res.prediction, d) ∈
          ([("de", [['a', 'b']]), ("en", [['a', 'b'], ['b', 'a']])] :
            List (String × List (List Char))).map (fun p =>
            (p.1, calculate_distance 5
              (generate_char_ngram_profile (normalize_text "ababab".toList) 2 5)
              p.2)) ∧
        ∀ q ∈ ([("de", [['a', 'b']]), ("en", [['a', 'b'], ['b', 'a']])] :
            List (String × List (List Char))).map (fun p =>
            (p.1, calculate_distance 5
              (generate_char_ngram_profile (normalize_text "ababab".toList) 2 5)
              p.2)),
          d ≤ q.2 :=
  c1_identify_success_shape
    [("de", [['a', 'b']]), ("en", [['a', 'b'], ['b', 'a']])] 2 5
    "ababab".toList 3 (by decide) (by decide) (by decide)

/-! ### Claim C2: tie-breaking among equal scores -/

/-- Inversion: a successful `identify` call's distribution is the stably
sorted score list truncated to `top_n`. -/
theorem identify_ok_distribution {profiles : List (String × List (List Char))}
    {n k : Nat} {text : List Char} {top_n : Nat} {res : IdentifyResult}
    (hres : identify profiles n k text top_n = .ok res) :
    res.distribution = ((profiles.map (fun p =>
      (p.1, calculate_distance k
        (generate_char_ngram_profile (normalize_text text) n k) p.2))).insertionSort
          ascByScore).take top_n := by
  by_cases hp : profiles = []
  · rw [identify, if_pos hp] at hres
    cases hres
  · by_cases htp : generate_char_ngram_profile (normalize_text text) n k = []
    · simp only [identify, if_neg hp, if_pos htp] at hres
      cases hres
    · simp only [identify, if_neg hp, if_neg htp] at hres
      cases hsort : (profiles.map (fun p =>
        (p.1, calculate_distance k
          (generate_char_ngram_profile (normalize_text text) n k) p.2))).insertionSort
            ascByScore with
      | nil =>
        rw [hsort] at hres
        cases hres
      | cons best rest =>
        rw [hsort] at hres
        cases hres
        rfl

/-- C2 counterexample: two languages with identical reference profiles
(hence tied scores 0) loaded in the order `["b", "a"]` are reported in
that load order even though `"a" < "b"` lexically; loading them in the
opposite order changes the output, so the ranking is not independent of
load order. -/
theorem c2_counterexample :
    (identify [("b", [['a', 'b'], ['b', 'a']]), ("a", [['a', 'b'], ['b', 'a']])]
        2 5 "ababab".toList 3).map (fun r => r.distribution) =
      .ok [("b", 0), ("a", 0)] ∧
    "a".toList < "b".toList ∧
    identify [("b", [['a', 'b'], ['b', 'a']]), ("a", [['a', 'b'], ['b', 'a']])]
        2 5 "ababab".toList 3 ≠
      identify [("a", [['a', 'b'], ['b', 'a']]), ("b", [['a', 'b'], ['b', 'a']])]
        2 5 "ababab".toList 3 :=
  ⟨by decide, by decide, by decide⟩

/-- C2 (amended): the sort on scores is stable, so equal-score languages
appear in the order they occur in the loaded profile mapping (insertion
= load order); the ranking is a deterministic function of that mapping
but not independent of load order.  Stated for `top_n` large enough to
show the whole distribution. -/
theorem c2_ties_keep_load_order
    (profiles : List (String × List (List Char))) (n k : Nat)
    (text : List Char) (top_n : Nat) (res : IdentifyResult)
    (ea eb : String × Nat)
    (hres : identify profiles n k text top_n = .ok res)
    (htn : profiles.length ≤ top_n)
    (hsub : List.Sublist [ea, eb] (profiles.map (fun p =>
      (p.1, calculate_distance k
        (generate_char_ngram_profile (normalize_text text) n k) p.2))))
    (hle : ea.2 ≤ eb.2) :
    List.Sublist [ea, eb] res.distribution := by
  rw [identify_ok_distribution hres]
  have hsorted := List.pair_sublist_insertionSort (r := ascByScore) hle hsub
  have hlen : ((profiles.map (fun p =>
      (p.1, calculate_distance k
        (generate_char_ngram_profile (normalize_text text) n k) p.2))).insertionSort
        ascByScore).length ≤ top_n := by
    rw [List.length_insertionSort, List.length_map]
    exact htn
  rw [List.take_of_length_le hlen]
  exact hsorted

/-- Witness for C2 (amended): the tied entries `("b",0)`, `("a",0)` of
the concrete run keep their load order in the distribution. -/
theorem c2_ties_keep_load_order_witness :
    List.Sublist [(("b" : String), 0), (("a" : String), 0)]
      ({ prediction := "b", distribution := [("b", 0), ("a", 0)],
         top_features := [['a', 'b'], ['b', 'a']] } : IdentifyResult).distribution :=
  c2_ties_keep_load_order
    [("b", [['a', 'b'], ['b', 'a']]), ("a", [['a', 'b'], ['b', 'a']])] 2 5
    "ababab".toList 3 _ ("b", 0) ("a", 0) (by decide) (by decide)
    (by decide) (by decide)

/-! ### Claim C8: the `InsufficientInput` message -/

/-- C8 counterexample: the too-short input `"a"` and the input
`"12345 !@#$%^&*()_+"` whose letters are entirely stripped by
normalization produce the SAME error message — the code does not
distinguish the two causes. -/
theorem c8_counterexample :
    identify [("en", [['t', 'h', 'e']])] 3 300 "a".toList 3 =
      .error "Text too short or lacks valid characters to analyze." ∧
    identify [("en", [['t', 'h', 'e']])] 3 300 "12345 !@#$%^&*()_+".toList 3 =
      .error "Text too short or lacks valid characters to analyze." :=
  ⟨by decide, by decide⟩

/-- C8 (amended): whenever the normalized text yields an empty profile —
whether the input was too short or its letters were all stripped — the
one merged message `"Text too short or lacks valid characters to
analyze."` is returned; the two causes are not distinguished. -/
theorem c8_single_insufficient_input_message
    (profiles : List (String × List (List Char))) (n k : Nat)
    (text : List Char) (top_n : Nat)
    (hp : profiles ≠ [])
    (htp : generate_char_ngram_profile (normalize_text text) n k = []) :
    identify profiles n k text top_n =
      .error "Text too short or lacks valid characters to analyze." := by
  simp only [identify, if_neg hp, if_pos htp]

/-- Witness for C8 (amended) at the concrete stripped-input case. -/
theorem c8_single_insufficient_input_message_witness :
    identify [("en", [['t', 'h', 'e']])] 3 300 "12, 34!".toList 3 =
      .error "Text too short or lacks valid characters to analyze." :=
  c8_single_insufficient_input_message [("en", [['t', 'h', 'e']])] 3 300
    "12, 34!".toList 3 (by decide) (by decide)

/-! ### Claim C7: hybrid scoring at the alpha extremes -/

/-- Inversion: a successful `identify` call's prediction is the language
of the first entry of the stably sorted score list. -/
theorem identify_ok_prediction {profiles : List (String × List (List Char))}
    {n k : Nat} {text : List Char} {top_n : Nat} {res : IdentifyResult}
    (hres : identify profiles n k text top_n = .ok res) :
    ((profiles.map (fun p =>
      (p.1, calculate_distance k
        (generate_char_ngram_profile (normalize_text text) n k) p.2))).insertionSort
          ascByScore).head?.map Prod.fst = some res.prediction := by
  by_cases hp : profiles = []
  · rw [identify, if_pos hp] at hres
    cases hres
  · by_cases htp : generate_char_ngram_profile (normalize_text text) n k = []
    · simp only [identify, if_neg hp, if_pos htp] at hres
      cases hres
    · simp only [identify, if_neg hp, if_neg htp] at hres
      cases hsort : (profiles.map (fun p =>
        (p.1, calculate_distance k
          (generate_char_ngram_profile (normalize_text text) n k) p.2))).insertionSort
            ascByScore with
      | nil =>
        rw [hsort] at hres
        cases hres
      | cons best rest =>
        rw [hsort] at hres
        cases hres
        rfl

/-- The blended score list built inside `HybridIdentifier.identify`
(languages without a subword profile are skipped). -/
def hybridScores (char_profiles : List (String × List (List Char)))
    (subword_profiles : List (String × List Int)) (tok : List Char → List Int)
    (n k : Nat) (alpha : ℚ) (text : List Char) : List (String × ℚ) :=
  char_profiles.filterMap (fun p =>
    (subword_profiles.lookup p.1).map (fun sp =>
      (p.1, alpha * (calculate_distance k
          (generate_char_ngram_profile (normalize_text text) n k) p.2 : ℚ)
        + (1 - alpha) * (calculate_distance k
          (generate_subword_profile tok text k) sp : ℚ))))

/-- Inversion: a successful hybrid call's distribution and prediction
come from the stably sorted blended score list. -/
theorem hybrid_ok_parts {char_profiles : List (String × List (List Char))}
    {subword_profiles : List (String × List Int)} {tok : List Char → List Int}
    {n k : Nat} {alpha : ℚ} {text : List Char} {top_n : Nat} {res : HybridResult}
    (hres : hybrid_identify char_profiles subword_profiles tok n k alpha text
      top_n = .ok res) :
    res.distribution = ((hybridScores char_profiles subword_profiles tok n k
        alpha text).insertionSort ascByScoreQ).take top_n ∧
    ((hybridScores char_profiles subword_profiles tok n k alpha
        text).insertionSort ascByScoreQ).head?.map Prod.fst =
      some res.prediction := by
  simp only [hybridScores]
  simp only [hybrid_identify] at hres
  by_cases h1 : generate_char_ngram_profile (normalize_text text) n k = [] ∨
      generate_subword_profile tok text k = []
  · rw [if_pos h1] at hres
    cases hres
  · rw [if_neg h1] at hres
    by_cases h2 : char_profiles.filterMap (fun p =>
        (subword_profiles.lookup p.1).map (fun sp =>
          (p.1, alpha * (calculate_distance k
              (generate_char_ngram_profile (normalize_text text) n k) p.2 : ℚ)
            + (1 - alpha) * (calculate_distance k
              (generate_subword_profile tok text k) sp : ℚ)))) = []
    · rw [if_pos h2] at hres
      cases hres
    · rw [if_neg h2] at hres
      cases hsort : (char_profiles.filterMap (fun p =>
          (subword_profiles.lookup p.1).map (fun sp =>
            (p.1, alpha * (calculate_distance k
                (generate_char_ngram_profile (normalize_text text) n k) p.2 : ℚ)
              + (1 - alpha) * (calculate_distance k
                (generate_subword_profile tok text k) sp : ℚ))))).insertionSort
                ascByScoreQ with
      | nil =>
        rw [hsort] at hres
        cases hres
      | cons best rest =>
        rw [hsort] at hres
        cases hres
        exact ⟨rfl, rfl⟩

theorem filterMap_eq_map_of_isSome {β γ : Type*} (f : β → Option γ) (g : β → γ)
    (l : List β) (h : ∀ b ∈ l, f b = some (g b)) :
    l.filterMap f = l.map g := by
  induction l with
  | nil => rfl
  | cons x xs ih =>
    rw [List.filterMap_cons, h x (List.mem_cons_self _ _), List.map_cons,
      ih (fun b hb => h b (List.mem_cons_of_mem _ hb))]

/-- With `alpha = 1` and a subword profile available for every language,
the blended score list is exactly the character score list (cast to ℚ). -/
theorem hybridScores_alpha_one
    (cps : List (String × List (List Char))) (sps : List (String × List Int))
    (tok : List Char → List Int) (n k : Nat) (text : List Char)
    (hcov : ∀ p ∈ cps, (sps.lookup p.1).isSome = true) :
    hybridScores cps sps tok n k 1 text =
      (cps.map (fun p => (p.1, calculate_distance k
        (generate_char_ngram_profile (normalize_text text) n k) p.2))).map
        (fun e => (e.1, (e.2 : ℚ))) := by
  rw [hybridScores, List.map_map]
  apply filterMap_eq_map_of_isSome
  intro p hp
  obtain ⟨sp, hsp⟩ := Option.isSome_iff_exists.mp (hcov p hp)
  rw [hsp, Option.map_some']
  simp only [Function.comp_apply]
  congr 1
  rw [one_mul, sub_self, zero_mul, add_zero]

/-- With `alpha = 0`, the blended score list is exactly the subword score
list over the languages having both profiles (cast to ℚ). -/
theorem hybridScores_alpha_zero
    (cps : List (String × List (List Char))) (sps : List (String × List Int))
    (tok : List Char → List Int) (n k : Nat) (text : List Char) :
    hybridScores cps sps tok n k 0 text =
      (cps.filterMap (fun p => (sps.lookup p.1).map (fun sp =>
        (p.1, calculate_distance k
          (generate_subword_profile tok text k) sp)))).map
        (fun e => (e.1, (e.2 : ℚ))) := by
  rw [hybridScores, List.map_filterMap]
  congr 1
  funext p
  cases hsp : sps.lookup p.1 with
  | none => rfl
  | some sp =>
    simp only [Option.map_some']
    congr 1
    rw [zero_mul, sub_zero, one_mul, zero_add]

/-- Sorting the ℚ-cast of a natural score list agrees with casting the
sorted natural score list: the cast is order-preserving and the sort is
the same stable insertion sort. -/
theorem insertionSort_cast_scores (l : List (String × Nat)) :
    (l.map (fun e => (e.1, (e.2 : ℚ)))).insertionSort ascByScoreQ =
      (l.insertionSort ascByScore).map (fun e => (e.1, (e.2 : ℚ))) := by
  symm
  apply List.map_insertionSort
  intro a _ b _
  exact Iff.symm (Nat.cast_le (α := ℚ))

/-- C7 counterexample: with the same character reference set but a
subword set lacking language `"y"`, both identifiers succeed, yet hybrid
`alpha = 1` skips `"y"` and ranks `["x"]` while pure character scoring
ranks `["y", "x"]` — the claim fails without the matching-profile
invariant. -/
theorem c7_counterexample :
    (identify [("x", []), ("y", [['a', 'b'], ['b', 'a']])] 2 5
        "ababab".toList 3).map
        (fun r => (r.prediction, r.distribution.map Prod.fst)) =
      .ok ("y", ["y", "x"]) ∧
    (hybrid_identify [("x", []), ("y", [['a', 'b'], ['b', 'a']])]
        [("x", [(1 : Int)])] (fun _ => [(1 : Int)]) 2 5 1
        "ababab".toList 3).map
        (fun r => (r.prediction, r.distribution.map Prod.fst)) =
      .ok ("x", ["x"]) :=
  ⟨by decide, by decide⟩

/-- C7 (amended): provided every language of the character reference set
also has a subword profile (the hybrid-mode invariant), whenever both
identifiers succeed, hybrid identification with `alpha = 1` gives the
same prediction and the same language ranking as pure character-only
identification; and with `alpha = 0` the hybrid prediction and ranking
are exactly those obtained by (stably) sorting the scorable languages by
their subword distances alone. -/
theorem c7_alpha_extremes
    (char_profiles : List (String × List (List Char)))
    (subword_profiles : List (String × List Int))
    (tok : List Char → List Int) (n k : Nat) (text : List Char) (top_n : Nat) :
    (∀ (r1 : IdentifyResult) (r2 : HybridResult),
      (∀ p ∈ char_profiles, (subword_profiles.lookup p.1).isSome = true) →
      identify char_profiles n k text top_n = .ok r1 →
      hybrid_identify char_profiles subword_profiles tok n k 1 text top_n =
        .ok r2 →
      r2.prediction = r1.prediction ∧
      r2.distribution.map Prod.fst = r1.distribution.map Prod.fst) ∧
    (∀ r : HybridResult,
      hybrid_identify char_profiles subword_profiles tok n k 0 text top_n =
        .ok r →
      ((char_profiles.filterMap (fun p =>
          (subword_profiles.lookup p.1).map (fun sp =>
            (p.1, calculate_distance k
              (generate_subword_profile tok text k) sp)))).insertionSort
          ascByScore).head?.map Prod.fst = some r.prediction ∧
      r.distribution.map Prod.fst =
        (((char_profiles.filterMap (fun p =>
          (subword_profiles.lookup p.1).map (fun sp =>
            (p.1, calculate_distance k
              (generate_subword_profile tok text k) sp)))).insertionSort
          ascByScore).take top_n).map Prod.fst) := by
  constructor
  · intro r1 r2 hcov h1 h2
    obtain ⟨hd2, hpred2⟩ := hybrid_ok_parts h2
    have hd1 := identify_ok_distribution h1
    have hpred1 := identify_ok_prediction h1
    rw [hybridScores_alpha_one _ _ _ _ _ _ hcov,
      insertionSort_cast_scores] at hd2 hpred2
    constructor
    · rw [List.head?_map, Option.map_map] at hpred2
      have hpred2' : ((char_profiles.map (fun p =>
          (p.1, calculate_distance k
            (generate_char_ngram_profile (normalize_text text) n k)
            p.2))).insertionSort ascByScore).head?.map Prod.fst =
          some r2.prediction := hpred2
      exact Option.some.inj (hpred2'.symm.trans hpred1)
    · rw [hd2, hd1, ← List.map_take, List.map_map]
      exact List.map_congr_left (fun e _ => rfl)
  · intro r hres
    obtain ⟨hd, hpred⟩ := hybrid_ok_parts hres
    rw [hybridScores_alpha_zero, insertionSort_cast_scores] at hd hpred
    constructor
    · rw [List.head?_map, Option.map_map] at hpred
      exact hpred
    · rw [hd, ← List.map_take, List.map_map]
      exact List.map_congr_left (fun e _ => rfl)

attribute [local semireducible] Rat.mul Rat.add Rat.sub in
/-- Witness for C7 (amended): part 1 applied at a concrete run with a
full matching subword set; both identifiers return ranking
`["y", "x"]`.  (Batteries marks `Rat.mul`/`Rat.add`/`Rat.sub`
irreducible, which blocks `decide`'s evaluation of the blended scores;
they are made semireducible locally.) -/
theorem c7_alpha_extremes_witness :
    ({ prediction := "y", distribution := [("y", (0 : ℚ)), ("x", 10)],
       top_features := [['a', 'b'], ['b', 'a']] } : HybridResult).prediction =
      ({ prediction := "y", distribution := [("y", 0), ("x", 10)],
         top_features := [['a', 'b'], ['b', 'a']] } : IdentifyResult).prediction ∧
    ({ prediction := "y", distribution := [("y", (0 : ℚ)), ("x", 10)],
       top_features := [['a', 'b'], ['b', 'a']] } : HybridResult).distribution.map
        Prod.fst =
      ({ prediction := "y", distribution := [("y", 0), ("x", 10)],
         top_features := [['a', 'b'], ['b', 'a']] } : IdentifyResult).distribution.map
        Prod.fst :=
  (c7_alpha_extremes [("x", []), ("y", [['a', 'b'], ['b', 'a']])]
      [("x", [(1 : Int)]), ("y", [(2 : Int)])] (fun _ => [(1 : Int)]) 2 5
      "ababab".toList 3).1 _ _ (by decide) (by decide) (by decide)

/-! ### Claim C9: normalization is idempotent

`normalize_text` outputs only lowercase letters and single separating
spaces, with no leading or trailing space; each stage of a second pass is
then the identity. -/

/-- The canonical output alphabet of `normalize_text`. -/
def canonChar (c : Char) : Prop := ('a' ≤ c ∧ c ≤ 'z') ∨ c = ' '

theorem isPySpace_cases {c : Char} (h : isPySpace c = true) :
    c = ' ' ∨ c = '\t' ∨ c = '\n' ∨ c = '\x0b' ∨ c = '\x0c' ∨ c = '\r' := by
  simp only [isPySpace, Bool.or_eq_true, decide_eq_true_eq, or_assoc] at h
  exact h

theorem not_isPySpace_of_letter {c : Char} (h : 'a' ≤ c) : isPySpace c = false := by
  cases hb : isPySpace c
  · rfl
  · rcases isPySpace_cases hb with rfl | rfl | rfl | rfl | rfl | rfl <;>
      exact absurd h (by decide)

theorem pyLower_eq_self_of_letter {c : Char} (h : 'a' ≤ c) : pyLower c = c := by
  rw [pyLower, if_neg]
  rintro ⟨-, h2⟩
  exact absurd (le_trans h h2) (by decide)

theorem map_pyLower_eq_self {l : List Char} (h : ∀ c ∈ l, canonChar c) :
    l.map pyLower = l := by
  conv_rhs => rw [← List.map_id l]
  apply List.map_congr_left
  intro c hc
  rcases h c hc with ⟨h1, -⟩ | rfl
  · exact pyLower_eq_self_of_letter h1
  · decide

theorem filter_keepChar_eq_self {l : List Char} (h : ∀ c ∈ l, canonChar c) :
    l.filter keepChar = l := by
  rw [List.filter_eq_self]
  intro c hc
  rcases h c hc with ⟨h1, h2⟩ | rfl
  · simp [keepChar, h1, h2]
  · decide

theorem canonChar_space_eq {c : Char} (hc : canonChar c)
    (hsp : isPySpace c = true) : c = ' ' := by
  rcases hc with ⟨h1, -⟩ | rfl
  · rw [not_isPySpace_of_letter h1] at hsp
    cases hsp
  · rfl

/-- On a list of canonical characters with no two adjacent spaces and (if
inside a run) no leading space, `collapseAux` is the identity. -/
theorem collapseAux_eq_self :
    ∀ (l : List Char), (∀ c ∈ l, canonChar c) →
      l.Chain' (fun a b => isPySpace a = false ∨ isPySpace b = false) →
      ∀ b : Bool, (b = true → l.head? ≠ some ' ') → collapseAux b l = l := by
  intro l
  induction l with
  | nil => intro _ _ b _; rfl
  | cons c cs ih =>
    intro hP1 hP2 b hb
    have hcs1 : ∀ x ∈ cs, canonChar x := fun x hx =>
      hP1 x (List.mem_cons_of_mem _ hx)
    have hcs2 := hP2.tail
    by_cases hsp : isPySpace c = true
    · have hc : c = ' ' := canonChar_space_eq (hP1 c (List.mem_cons_self _ _)) hsp
      subst hc
      have hbf : b = false := by
        cases b
        · rfl
        · exact absurd rfl (hb rfl)
      subst hbf
      rw [collapseAux, if_pos hsp, if_neg (by simp)]
      congr 1
      apply ih hcs1 hcs2 true
      intro _ hhd
      have hrel := (List.chain'_cons'.mp hP2).1 ' ' hhd
      rcases hrel with h | h
      · rw [show isPySpace ' ' = true by decide] at h
        cases h
      · rw [show isPySpace ' ' = true by decide] at h
        cases h
    · rw [collapseAux, if_neg hsp]
      congr 1
      exact ih hcs1 hcs2 false (by simp)

theorem dropWhile_eq_self_of_head {l : List Char} {p : Char → Bool}
    (h : ∀ c, l.head? = some c → p c = false) : l.dropWhile p = l := by
  cases l with
  | nil => rfl
  | cons x xs =>
    rw [List.dropWhile_cons, h x rfl]
    simp

theorem pyStrip_eq_self {l : List Char}
    (hh : ∀ c, l.head? = some c → isPySpace c = false)
    (hl : ∀ c, l.getLast? = some c → isPySpace c = false) :
    pyStrip l = l := by
  rw [pyStrip, dropWhile_eq_self_of_head hh,
    dropWhile_eq_self_of_head (fun c hc => hl c (by rwa [List.head?_reverse] at hc)),
    List.reverse_reverse]

theorem mem_collapseAux :
    ∀ (b : Bool) (l : List Char) (c : Char), c ∈ collapseAux b l →
      c = ' ' ∨ (c ∈ l ∧ isPySpace c = false) := by
  intro b l
  induction l generalizing b with
  | nil => intro c hc; cases hc
  | cons x xs ih =>
    intro c hc
    rw [collapseAux] at hc
    by_cases hsp : isPySpace x = true
    · rw [if_pos hsp] at hc
      cases b with
      | true =>
        rcases ih true c hc with h | ⟨h1, h2⟩
        · exact Or.inl h
        · exact Or.inr ⟨List.mem_cons_of_mem _ h1, h2⟩
      | false =>
        rcases List.mem_cons.mp hc with rfl | hc'
        · exact Or.inl rfl
        · rcases ih true c hc' with h | ⟨h1, h2⟩
          · exact Or.inl h
          · exact Or.inr ⟨List.mem_cons_of_mem _ h1, h2⟩
    · rw [if_neg hsp] at hc
      rcases List.mem_cons.mp hc with rfl | hc'
      · exact Or.inr ⟨List.mem_cons_self _ _, Bool.not_eq_true _ ▸ hsp⟩
      · rcases ih false c hc' with h | ⟨h1, h2⟩
        · exact Or.inl h
        · exact Or.inr ⟨List.mem_cons_of_mem _ h1, h2⟩

theorem head_collapseAux_true :
    ∀ (l : List Char) (c : Char), (collapseAux true l).head? = some c →
      isPySpace c = false := by
  intro l
  induction l with
  | nil => intro c h; cases h
  | cons x xs ih =>
    intro c h
    rw [collapseAux] at h
    by_cases hsp : isPySpace x = true
    · rw [if_pos hsp, if_pos rfl] at h
      exact ih c h
    · rw [if_neg hsp] at h
      cases h
      exact Bool.not_eq_true _ ▸ hsp

theorem chain'_collapseAux :
    ∀ (b : Bool) (l : List Char), (collapseAux b l).Chain'
      (fun a b' => isPySpace a = false ∨ isPySpace b' = false) := by
  intro b l
  induction l generalizing b with
  | nil => rw [show collapseAux b [] = [] from rfl]; exact List.chain'_nil
  | cons x xs ih =>
    rw [collapseAux]
    by_cases hsp : isPySpace x = true
    · rw [if_pos hsp]
      cases b with
      | true => exact ih true
      | false =>
        rw [if_neg (by simp)]
        rw [List.chain'_cons']
        exact ⟨fun y hy => Or.inr (head_collapseAux_true xs y hy), ih true⟩
    · rw [if_neg hsp]
      rw [List.chain'_cons']
      exact ⟨fun y _ => Or.inl (Bool.not_eq_true _ ▸ hsp), ih false⟩

theorem suffix_getLast? {β : Type*} {r s : List β} (h : List.IsSuffix r s)
    (hne : r ≠ []) : s.getLast? = r.getLast? := by
  obtain ⟨t, rfl⟩ := h
  rw [List.getLast?_append]
  cases hr : r.getLast? with
  | none => exact absurd (List.getLast?_eq_none_iff.mp hr) hne
  | some x => rfl

theorem pyStrip_subset {l : List Char} : ∀ {c : Char}, c ∈ pyStrip l → c ∈ l := by
  intro c hc
  rw [pyStrip, List.mem_reverse] at hc
  have h1 := (List.dropWhile_sublist _).subset hc
  rw [List.mem_reverse] at h1
  exact (List.dropWhile_sublist _).subset h1

theorem pyStrip_head_not_space {l : List Char} {c : Char}
    (h : (pyStrip l).head? = some c) : isPySpace c = false := by
  rw [pyStrip, List.head?_reverse] at h
  have hrne : (l.dropWhile isPySpace).reverse.dropWhile isPySpace ≠ [] := by
    intro hr
    rw [hr] at h
    cases h
  have hsuf : List.IsSuffix ((l.dropWhile isPySpace).reverse.dropWhile isPySpace)
      (l.dropWhile isPySpace).reverse := List.dropWhile_suffix _
  rw [← suffix_getLast? hsuf hrne, List.getLast?_reverse] at h
  have hd := List.head?_dropWhile_not isPySpace l
  rw [h] at hd
  exact hd

theorem pyStrip_last_not_space {l : List Char} {c : Char}
    (h : (pyStrip l).getLast? = some c) : isPySpace c = false := by
  rw [pyStrip, List.getLast?_reverse] at h
  have hd := List.head?_dropWhile_not isPySpace (l.dropWhile isPySpace).reverse
  rw [h] at hd
  exact hd

theorem chain'_pyStrip {l : List Char}
    (h : l.Chain' (fun a b => isPySpace a = false ∨ isPySpace b = false)) :
    (pyStrip l).Chain' (fun a b => isPySpace a = false ∨ isPySpace b = false) := by
  rw [pyStrip, List.chain'_reverse]
  have hm : (l.dropWhile isPySpace).Chain'
      (fun a b => isPySpace a = false ∨ isPySpace b = false) :=
    h.suffix (List.dropWhile_suffix _)
  have hmr : ((l.dropWhile isPySpace).reverse).Chain'
      (flip (fun a b => isPySpace a = false ∨ isPySpace b = false)) := by
    rw [List.chain'_reverse]
    exact hm.imp (fun a b hab => hab)
  exact hmr.suffix (List.dropWhile_suffix _)

/-- C9: normalization is idempotent. -/
theorem c9_normalize_idempotent (s : List Char) :
    normalize_text (normalize_text s) = normalize_text s := by
  have hP1 : ∀ c ∈ normalize_text s, canonChar c := by
    intro c hc
    rw [normalize_text, collapseSpaces] at hc
    have hc' := pyStrip_subset hc
    rcases mem_collapseAux _ _ _ hc' with rfl | ⟨h1, h2⟩
    · exact Or.inr rfl
    · have hk := List.of_mem_filter h1
      simp only [keepChar, Bool.or_eq_true, Bool.and_eq_true,
        decide_eq_true_eq] at hk
      rcases hk with ⟨hk1, hk2⟩ | hk2
      · exact Or.inl ⟨hk1, hk2⟩
      · rw [h2] at hk2
        cases hk2
  have hP2 : (normalize_text s).Chain'
      (fun a b => isPySpace a = false ∨ isPySpace b = false) := by
    rw [normalize_text, collapseSpaces]
    exact chain'_pyStrip (chain'_collapseAux false _)
  conv_lhs => rw [normalize_text]
  rw [map_pyLower_eq_self hP1, filter_keepChar_eq_self hP1, collapseSpaces,
    collapseAux_eq_self _ hP1 hP2 false (by simp)]
  exact pyStrip_eq_self (fun c hc => pyStrip_head_not_space hc)
    (fun c hc => pyStrip_last_not_space hc)

end LangID
